import Mathlib

/-!
Verification of the bytecode-to-source mapping and symbolic-state
bookkeeping subsystem of the oyente-learn analyzer.

The Python sources `utils.py`, `ast_helper.py` and `source_map.py` are
shallowly embedded below.  Python strings that the code dissects
character by character are modelled as `List Char`; Python `None` /
`KeyError` / `IndexError` outcomes are modelled with `Option`.
-/

/-- Short-hand turning a string literal into the character-list
representation used for dissected Python strings. -/
def nm (s : String) : List Char := s.toList

/-- Embedding of Python `str.split(sep)` for a one-character separator:
splits at every occurrence of `c`, keeping empty segments, and always
returns at least one segment. -/
def splitOnChar (c : Char) : List Char → List (List Char)
  | [] => [[]]
  | x :: xs =>
    match splitOnChar c xs with
    | [] => [[]]
    | r :: rs => if x = c then [] :: r :: rs else (x :: r) :: rs

/-- Value of a run of decimal digits, as Python `int` computes it for a
string of digits. -/
def decimalValue (l : List Char) : Nat :=
  l.foldl (fun acc c => acc * 10 + (c.toNat - '0'.toNat)) 0

/-- Python dictionary lookup on an association list (keys unique by
construction wherever this is used). -/
def dictGet {κ α : Type} [DecidableEq κ] : List (κ × α) → κ → Option α
  | [], _ => none
  | (k, a) :: rest, key => if key = k then some a else dictGet rest key

/- ### utils.to_unsigned / utils.to_signed -/

/-- Embedding of `utils.to_unsigned`: adds `2^256` to a negative
integer, returns non-negative input unchanged. -/
def to_unsigned (number : Int) : Int :=
  if number < 0 then number + 2 ^ 256 else number

/-- Embedding of `utils.to_signed`: subtracts `2^256` from a value that
is at least `2^(256-1)`, returns smaller input unchanged. -/
def to_signed (number : Int) : Int :=
  if number ≥ 2 ^ (256 - 1) then number - 2 ^ 256 else number

/- ### utils.is_storage_var / utils.get_storage_position -/

/-- Storage slot extracted from a storage variable name: numeric when
the token is a decimal numeral, otherwise the token itself as an opaque
symbolic slot identifier. -/
inductive SlotId where
  | num (n : Nat)
  | sym (s : List Char)
deriving DecidableEq

/-- Embedding of `utils.is_storage_var`: the name starts with the fixed
marker `Ia_store`. -/
def is_storage_var (v : List Char) : Bool :=
  (nm "Ia_store").isPrefixOf v

/-- Embedding of `utils.get_storage_position`: takes element 1 of
`var.split('-')` (Python raises `IndexError`, here `none`, when there is
no `'-'`), then parses it as an integer when it is a decimal numeral and
keeps the raw token otherwise. -/
def get_storage_position (v : List Char) : Option SlotId :=
  match (splitOnChar '-' v).get? 1 with
  | none => none
  | some pos =>
    if pos ≠ [] ∧ pos.all Char.isDigit then some (SlotId.num (decimalValue pos))
    else some (SlotId.sym pos)

/- ### helper lemmas about splitOnChar -/

lemma splitOnChar_ne_nil (c : Char) (l : List Char) : splitOnChar c l ≠ [] := by
  cases l with
  | nil => simp [splitOnChar]
  | cons x xs =>
    simp only [splitOnChar]
    rcases h : splitOnChar c xs with _ | ⟨r, rs⟩
    · simp
    · by_cases hx : x = c <;> simp [hx]

lemma splitOnChar_of_not_mem (c : Char) (l : List Char) (h : c ∉ l) :
    splitOnChar c l = [l] := by
  induction l with
  | nil => rfl
  | cons x xs ih =>
    have hx : x ≠ c := fun hh => h (hh ▸ List.mem_cons_self x xs)
    have hxs : c ∉ xs := fun hh => h (List.mem_cons_of_mem x hh)
    simp only [splitOnChar, ih hxs]
    simp [hx]

lemma splitOnChar_append (c : Char) (xs ys : List Char) (h : c ∉ xs) :
    splitOnChar c (xs ++ c :: ys) = xs :: splitOnChar c ys := by
  induction xs with
  | nil =>
    simp only [List.nil_append, splitOnChar]
    rcases hs : splitOnChar c ys with _ | ⟨r, rs⟩
    · exact absurd hs (splitOnChar_ne_nil c ys)
    · simp
  | cons x xs ih =>
    have hx : x ≠ c := fun hh => h (hh ▸ List.mem_cons_self x xs)
    have hxs : c ∉ xs := fun hh => h (List.mem_cons_of_mem x hh)
    simp only [List.cons_append, splitOnChar, List.append_eq]
    rw [ih hxs]
    simp [hx]

lemma isPrefixOf_append_self (x t : List Char) : x.isPrefixOf (x ++ t) = true := by
  induction x with
  | nil => simp [List.isPrefixOf]
  | cons a as ih => simp [List.isPrefixOf, ih]

/- ### utils.check_sat -/

/-- Result of a Z3 `solver.check()` call. -/
inductive CheckResult where
  | sat
  | unsat
  | unknown
deriving DecidableEq

/-- State of the solver handle as far as `check_sat` observes it: the
outcome its next `check()` produces, the reason it reports for an
unknown outcome, and the depth of its push/pop frame stack. -/
structure Solver where
  check_result : CheckResult
  reason_unknown : String
  frames : Nat
deriving DecidableEq

/-- Effect of `solver.pop()`: drops one frame from the solver stack. -/
def solver_pop (s : Solver) : Solver := { s with frames := s.frames - 1 }

/-- Embedding of `utils.check_sat`: runs the check; when the result is
`unknown` it raises a `Z3Exception` carrying `solver.reason_unknown()`
(modelled as `Except.error`), popping the solver stack first when
`pop_if_exception` is set; otherwise it returns the result. -/
def check_sat (s : Solver) (pop_if_exception : Bool) :
    Except String CheckResult × Solver :=
  let ret := s.check_result
  if ret = CheckResult.unknown then
    if pop_if_exception then (Except.error s.reason_unknown, solver_pop s)
    else (Except.error s.reason_unknown, s)
  else (Except.ok ret, s)

/-- `check_sat` with its Python default argument `pop_if_exception=True`. -/
def check_sat_default (s : Solver) : Except String CheckResult × Solver :=
  check_sat s true

/- ### source_map._get_func_name_to_params (calldata slot assignment) -/

/-- Parameter descriptor as produced by
`AstHelper.get_func_name_to_params`: array parameters carry the declared
length (`value`), other parameters have no `value` key. -/
structure Param where
  name : String
  type : String
  value : Option Int
deriving DecidableEq

/-- Slot size a parameter advances the calldata position counter by:
the declared array length (`param.get('value', 1)`) for array
parameters, 1 for everything else. -/
def paramSlotSize (p : Param) : Int :=
  if p.type = "ArrayTypeName" then p.value.getD 1 else 1

/-- Loop body of `SourceMap._get_func_name_to_params`: walks the
parameter list in declaration order, records the current counter as the
parameter's position and advances the counter by the parameter's slot
size. -/
def assign_positions_go (pos : Int) : List Param → List (Param × Int)
  | [] => []
  | p :: ps => (p, pos) :: assign_positions_go (pos + paramSlotSize p) ps

/-- Position assignment of `SourceMap._get_func_name_to_params` for one
function's parameter list (the counter starts at 0). -/
def assign_positions (ps : List Param) : List (Param × Int) :=
  assign_positions_go 0 ps

/-- Embedding of `SourceMap._get_func_name_to_params`: performs the
position assignment for every function in the map. -/
def get_func_name_to_params (m : List (String × List Param)) :
    List (String × List (Param × Int)) :=
  m.map (fun fp => (fp.1, assign_positions fp.2))

lemma assign_positions_go_map_fst (pos : Int) (ps : List Param) :
    (assign_positions_go pos ps).map Prod.fst = ps := by
  induction ps generalizing pos with
  | nil => rfl
  | cons p ps ih => simp [assign_positions_go, ih]

lemma assign_positions_go_getD (ps : List Param) :
    ∀ (pos : Int) (k : Nat), k < ps.length →
      ((assign_positions_go pos ps).map Prod.snd).getD k 0 =
        pos + (((ps.take k).map paramSlotSize).sum) := by
  induction ps with
  | nil => intro pos k hk; simp at hk
  | cons p ps ih =>
    intro pos k hk
    cases k with
    | zero => simp [assign_positions_go]
    | succ k =>
      have hk' : k < ps.length := by simpa using hk
      simp only [assign_positions_go, List.map_cons, List.getD_cons_succ,
        List.take_succ_cons, List.sum_cons]
      rw [ih (pos + paramSlotSize p) k hk']
      ring

lemma assign_positions_go_chain (ps : List Param) (h : ∀ p ∈ ps, 1 ≤ paramSlotSize p) :
    ∀ pos : Int, List.Chain' (· < ·) ((assign_positions_go pos ps).map Prod.snd) := by
  induction ps with
  | nil => intro pos; simp [assign_positions_go]
  | cons p ps ih =>
    intro pos
    have hp : 1 ≤ paramSlotSize p := h p (List.mem_cons_self p ps)
    have hps : ∀ q ∈ ps, 1 ≤ paramSlotSize q := fun q hq => h q (List.mem_cons_of_mem p hq)
    cases ps with
    | nil => simp [assign_positions_go]
    | cons q qs =>
      simp only [assign_positions_go, List.map_cons, List.chain'_cons]
      constructor
      · omega
      · have := ih hps (pos + paramSlotSize p)
        simpa [assign_positions_go] using this

/- ### ast_helper.extract_state_definitions -/

/-- Direct child of a contract-definition AST node: its node kind
(`name`, e.g. "VariableDeclaration") and its `attributes.name`. -/
structure ChildNode where
  name : String
  attrName : String
deriving DecidableEq

/-- Contract-definition AST node as `extract_state_definitions` reads
it: numeric id, the compiler-supplied `linearizedBaseContracts` id list,
and the direct child list (`none` models a node without a "children"
key). -/
structure ContractNode where
  id : Nat
  linearizedBaseContracts : List Nat
  children : Option (List ChildNode)
deriving DecidableEq

/-- The contract registry built by `extract_contract_definitions`:
contracts indexed by id and by qualified name. -/
structure ContractsIndex where
  contractsById : List (Nat × ContractNode)
  contractsByName : List (String × ContractNode)

/-- Embedding of `AstHelper.get_linearized_base_contracts`: maps each id
of the contract's `linearizedBaseContracts` attribute through the id
index (`none` models the `KeyError` on a dangling id). -/
def get_linearized_base_contracts (contractsById : List (Nat × ContractNode))
    (cid : Nat) : Option (List ContractNode) :=
  match dictGet contractsById cid with
  | none => none
  | some node => node.linearizedBaseContracts.mapM (fun i => dictGet contractsById i)

/-- Inner loop of `extract_state_definitions`: appends the direct
"VariableDeclaration" children of one contract to the accumulator,
skipping contracts without a "children" key. -/
def collectVarDecls (acc : List ChildNode) (contract : ContractNode) : List ChildNode :=
  match contract.children with
  | none => acc
  | some items =>
    items.foldl (fun a item => if item.name == "VariableDeclaration" then a ++ [item] else a) acc

/-- Embedding of `AstHelper.extract_state_definitions`: looks the
contract up by qualified name, resolves and reverses its linearized base
list, and accumulates each contract's direct "VariableDeclaration"
children in that order.  (Contract nodes are non-empty dictionaries, so
the Python `if node:` truthiness test is always taken.) -/
def extract_state_definitions (contracts : ContractsIndex) (c_name : String) :
    Option (List ChildNode) :=
  match dictGet contracts.contractsByName c_name with
  | none => none
  | some node =>
    match get_linearized_base_contracts contracts.contractsById node.id with
    | none => none
    | some base_contracts =>
      some ((base_contracts.reverse).foldl collectVarDecls [])

lemma foldl_filter_append {α : Type} (p : α → Bool) (items : List α) :
    ∀ acc : List α,
      items.foldl (fun a item => if p item then a ++ [item] else a) acc =
        acc ++ items.filter p := by
  induction items with
  | nil => intro acc; simp
  | cons it its ih =>
    intro acc
    cases h : p it <;> simp [h, List.filter_cons, ih, List.append_assoc]

lemma collectVarDecls_eq (acc : List ChildNode) (c : ContractNode) :
    collectVarDecls acc c =
      acc ++ (c.children.getD []).filter (fun item => item.name == "VariableDeclaration") := by
  cases hc : c.children with
  | none => simp [collectVarDecls, hc]
  | some items =>
    simp only [collectVarDecls, hc, Option.getD_some]
    exact foldl_filter_append (fun item => item.name == "VariableDeclaration") items acc

lemma foldl_collectVarDecls (cs : List ContractNode) :
    ∀ acc : List ChildNode,
      cs.foldl collectVarDecls acc =
        acc ++ (cs.map (fun c =>
          (c.children.getD []).filter (fun item => item.name == "VariableDeclaration"))).flatten := by
  induction cs with
  | nil => intro acc; simp
  | cons c cs ih =>
    intro acc
    simp only [List.foldl_cons, ih, collectVarDecls_eq, List.map_cons, List.flatten_cons,
      List.append_assoc]

/- ### source_map._get_positions -/

/-- Shape of one level of the compiler's assembly output as
`_get_positions` reads it: `code` models the `.code` entry (a list of
opaque instruction-position records), `leaf` models a level whose
`.data` has no `'0'` sub-assembly and `node` one where it does. -/
inductive AsmSeg where
  | leaf (code : Option (List Nat))
  | node (code : Option (List Nat)) (next : AsmSeg)

/-- The `.code` entry of an assembly level. -/
def AsmSeg.code : AsmSeg → Option (List Nat)
  | .leaf c => c
  | .node c _ => c

/-- Embedding of the `while True` loop of `SourceMap._get_positions`:
each iteration first appends the `None` sentinel, then tries to extend
the stream with the nested segment's `.code` and descend; the first
failure (no nested segment, or nested segment without code) breaks the
loop with the sentinel already appended. -/
def get_positions_loop : AsmSeg → List (Option Nat) → List (Option Nat)
  | .leaf _, positions => positions ++ [none]
  | .node _ next, positions =>
    match next.code with
    | none => positions ++ [none]
    | some code => get_positions_loop next ((positions ++ [none]) ++ code.map some)

/-- Embedding of `SourceMap._get_positions` for one contract whose
assembly is present: starts from the contract's own `.code` stream
(`none` models the `KeyError` when it is absent) and runs the
flattening loop. -/
def get_positions (asm : AsmSeg) : Option (List (Option Nat)) :=
  match asm.code with
  | none => none
  | some code => some (get_positions_loop asm (code.map some))

/-- The chain of nested auxiliary code segments that have their own
code, in descent order (the descent stops at the first nested segment
without code, exactly as the loop does). -/
def nestedCodes : AsmSeg → List (List Nat)
  | .leaf _ => []
  | .node _ next =>
    match next.code with
    | none => []
    | some code => code :: nestedCodes next

/-- The stream the claim describes: the contract's own code followed,
for each successively nested code-bearing segment, by exactly one
sentinel gap entry and that segment's code — with no trailing
sentinel. -/
def claimStream (asm : AsmSeg) : List (Option Nat) :=
  (asm.code.getD []).map some ++
    ((nestedCodes asm).map (fun code => none :: code.map some)).flatten

lemma get_positions_loop_eq (asm : AsmSeg) :
    ∀ positions : List (Option Nat),
      get_positions_loop asm positions =
        positions ++ ((nestedCodes asm).map (fun code => none :: code.map some)).flatten ++ [none] := by
  induction asm with
  | leaf c => intro positions; simp [get_positions_loop, nestedCodes]
  | node c next ih =>
    intro positions
    cases hc : next.code with
    | none => simp [get_positions_loop, nestedCodes, hc]
    | some code =>
      simp only [get_positions_loop, nestedCodes, hc, ih, List.map_cons, List.flatten_cons,
        List.append_assoc, List.cons_append, List.nil_append]

/- ### source_map: line-break table and lower-bound binary search -/

/-- Embedding of `Source._load_line_break_positions`: the indices of all
newline characters in the content, in increasing order. -/
def load_line_break_positions (content : List Char) : List Nat :=
  (List.range content.length).filter (fun i => content.getD i ' ' == '\n')

/-- One source file: its decoded content.  Mirrors the `Source` class of
`source_map.py`. -/
structure Source where
  content : List Char

/-- The cached `line_break_positions` field of a `Source`. -/
def line_break_positions (src : Source) : List Nat :=
  load_line_break_positions src.content

/-- The `while length > 0` loop of `SourceMap._find_lower_bound`,
written with an explicit fuel argument so that the definition stays
kernel-computable; every iteration strictly decreases `length`, so fuel
equal to the initial `length` is always enough (the fuel-exhausted
branch returns `start`, exactly the loop exit). -/
def find_lower_bound_go (target : Nat) (a : List Nat) : Nat → Nat → Nat → Nat
  | 0, start, _ => start
  | fuel + 1, start, length =>
    if 0 < length then
      let half := length / 2
      let middle := start + half
      if a.getD middle 0 ≤ target then
        find_lower_bound_go target a fuel (middle + 1) (length - 1 - half)
      else
        find_lower_bound_go target a fuel start half
    else start

/-- Embedding of `SourceMap._find_lower_bound`: binary search returning
`start - 1`, the index of the greatest element `≤ target` in a sorted
array, or `-1` when every element exceeds `target`. -/
def find_lower_bound (target : Nat) (a : List Nat) : Int :=
  (find_lower_bound_go target a a.length 0 a.length : Int) - 1

lemma pairwise_le_getD {a : List Nat} (h : List.Pairwise (· ≤ ·) a) {i j : Nat}
    (hij : i ≤ j) (hj : j < a.length) : a.getD i 0 ≤ a.getD j 0 := by
  rcases Nat.lt_or_ge i j with hlt | hge
  · have hi : i < a.length := lt_trans hlt hj
    rw [List.getD_eq_getElem a 0 hi, List.getD_eq_getElem a 0 hj]
    exact List.pairwise_iff_getElem.mp h i j hi hj hlt
  · have : i = j := le_antisymm hij hge
    subst this
    exact le_refl _

lemma find_lower_bound_go_spec (target : Nat) (a : List Nat)
    (hs : List.Pairwise (· ≤ ·) a) :
    ∀ (fuel length start : Nat), length ≤ fuel → start + length ≤ a.length →
      (∀ i, i < start → a.getD i 0 ≤ target) →
      (∀ i, start + length ≤ i → i < a.length → target < a.getD i 0) →
      start ≤ find_lower_bound_go target a fuel start length ∧
      find_lower_bound_go target a fuel start length ≤ start + length ∧
      (∀ i, i < find_lower_bound_go target a fuel start length → a.getD i 0 ≤ target) ∧
      (∀ i, find_lower_bound_go target a fuel start length ≤ i → i < a.length →
        target < a.getD i 0) := by
  intro fuel
  induction fuel with
  | zero =>
    intro length start hfuel hlen hlo hhi
    have h0 : length = 0 := Nat.le_zero.mp hfuel
    subst h0
    simp only [find_lower_bound_go]
    exact ⟨le_refl _, Nat.le_add_right _ _, hlo, by simpa using hhi⟩
  | succ fuel ih =>
    intro length start hfuel hlen hlo hhi
    by_cases hpos : 0 < length
    · have hstep : find_lower_bound_go target a (fuel + 1) start length =
        if a.getD (start + length / 2) 0 ≤ target then
          find_lower_bound_go target a fuel (start + length / 2 + 1) (length - 1 - length / 2)
        else
          find_lower_bound_go target a fuel start (length / 2) := by
        simp [find_lower_bound_go, hpos]
      by_cases hmid : a.getD (start + length / 2) 0 ≤ target
      · rw [hstep, if_pos hmid]
        have hmidlt : start + length / 2 < a.length := by omega
        have hlo' : ∀ i, i < start + length / 2 + 1 → a.getD i 0 ≤ target := by
          intro i hi
          exact le_trans (pairwise_le_getD hs (by omega) hmidlt) hmid
        have := ih (length - 1 - length / 2) (start + length / 2 + 1)
          (by omega) (by omega) hlo' (by intro i h1 h2; exact hhi i (by omega) h2)
        exact ⟨by omega, by omega, this.2.2.1, this.2.2.2⟩
      · rw [hstep, if_neg hmid]
        push_neg at hmid
        have hhi' : ∀ i, start + length / 2 ≤ i → i < a.length → target < a.getD i 0 := by
          intro i h1 h2
          exact lt_of_lt_of_le hmid (pairwise_le_getD hs h1 h2)
        have := ih (length / 2) start (by omega) (by omega) hlo
          (by intro i h1 h2; exact hhi' i (by omega) h2)
        exact ⟨this.1, by omega, this.2.2.1, this.2.2.2⟩
    · have h0 : length = 0 := by omega
      subst h0
      simp only [find_lower_bound_go, if_neg hpos]
      exact ⟨le_refl _, Nat.le_add_right _ _, hlo, by simpa using hhi⟩

lemma load_line_break_positions_sorted (cs : List Char) :
    List.Pairwise (· < ·) (load_line_break_positions cs) :=
  List.Pairwise.filter _ (List.pairwise_lt_range cs.length)

lemma load_line_break_positions_lt_length {cs : List Char} {b : Nat}
    (h : b ∈ load_line_break_positions cs) : b < cs.length := by
  have := List.mem_filter.mp h
  exact List.mem_range.mp this.1

lemma mem_load_line_break_positions {cs : List Char} {b : Nat} :
    b ∈ load_line_break_positions cs ↔ b < cs.length ∧ cs.getD b ' ' = '\n' := by
  constructor
  · intro h
    have := List.mem_filter.mp h
    exact ⟨List.mem_range.mp this.1, by simpa using this.2⟩
  · intro ⟨h1, h2⟩
    exact List.mem_filter.mpr ⟨List.mem_range.mpr h1, by simpa using h2⟩

/- ### source_map._convert_from_char_pos -/

/-- Embedding of `SourceMap._convert_from_char_pos`: guards offsets
outside `[0, len(content))` with `None`; otherwise runs the lower-bound
binary search on the line-break table and returns the pair the Python
code packs as `{'line': line + 1, 'column': col}`. -/
def convert_from_char_pos (src : Source) (pos : Int) : Option (Int × Int) :=
  if pos < 0 ∨ (src.content.length : Int) ≤ pos then none
  else
    let breaks := line_break_positions src
    let line : Int := find_lower_bound pos.toNat breaks
    let beginColOffset : Int :=
      if line < 0 then 0 else ((breaks.getD line.toNat 0 : Nat) : Int) + 1
    some (line + 1, pos - beginColOffset)

/- ### ast_helper.get_callee_src_pairs -/

/-- Embedding of `AstHelper._find_contract_path`: walks the known
qualified names in order and returns the first whose segment after the
last `':'` equals the contract name; returns the empty string when none
matches. -/
def find_contract_path (contract_paths : List (List Char)) (contract : List Char) :
    List Char :=
  match contract_paths with
  | [] => []
  | path :: rest =>
    if (splitOnChar ':' path).getLastD [] = contract then path
    else find_contract_path rest contract

mutual
/-- AST node as `get_callee_src_pairs` reads it: optional
`attributes.member_name`, optional `attributes.type`, the `src` span
string, and the ordered child list (as a sibling chain so that all
recursion stays structural). -/
inductive RNode where
  | mk (member_name : Option String) (typeAttr : Option (List Char)) (src : String)
      (children : RForest)
/-- A list of sibling AST nodes. -/
inductive RForest where
  | nil
  | cons (head : RNode) (tail : RForest)
end

/-- The attribute patterns `get_callee_src_pairs` hands to the walker:
`member_name` equal to `delegatecall`, `call` or `callcode`. -/
def calleeAttrMatch : RNode → Bool
  | RNode.mk m _ _ _ =>
    m == some "delegatecall" || m == some "call" || m == some "callcode"

mutual
/-- Modelled from the spec: `AstWalker.walk` (`ast_walker.py` is not
part of the analysed sources).  Per the spec it is a "subtree search for
member-access call expressions whose member name is one of a fixed set
of high-risk low-level call primitives", i.e. a predicate-based search
over the immutable tree; matches are collected in preorder. -/
def walk : RNode → List RNode
  | RNode.mk m t s cs =>
    (if calleeAttrMatch (RNode.mk m t s cs) then [RNode.mk m t s cs] else []) ++ walkForest cs
/-- Modelled from the spec: the walker's traversal of a child list. -/
def walkForest : RForest → List RNode
  | RForest.nil => []
  | RForest.cons c cs => walk c ++ walkForest cs
end

/-- Loop of `AstHelper.get_callee_src_pairs` over the matched nodes:
skips nodes without children; reads the first child's static type
annotation (`none` models the `KeyError` when it is absent); when the
annotation's first word is `contract` it resolves the second word
through `find_contract_path` (`none` models the `IndexError` when there
is no second word) and emits the `(contract_path, src)` pair. -/
def get_callee_src_pairs_go (qnames : List (List Char)) :
    List RNode → Option (List (List Char × String))
  | [] => some []
  | RNode.mk _ _ src children :: rest =>
    match children with
    | RForest.nil => get_callee_src_pairs_go qnames rest
    | RForest.cons (RNode.mk _ ft _ _) _ =>
      match ft with
      | none => none
      | some tstr =>
        if (splitOnChar ' ' tstr).headD [] = nm "contract" then
          match (splitOnChar ' ' tstr).get? 1 with
          | none => none
          | some cname =>
            match get_callee_src_pairs_go qnames rest with
            | none => none
            | some tail => some ((find_contract_path qnames cname, src) :: tail)
        else get_callee_src_pairs_go qnames rest

/-- Embedding of `AstHelper.get_callee_src_pairs` for one contract
subtree: walks the subtree for the high-risk member accesses and runs
the resolution loop over the matches. -/
def get_callee_src_pairs (qnames : List (List Char)) (root : RNode) :
    Option (List (List Char × String)) :=
  get_callee_src_pairs_go qnames (walk root)

/- ### utils.rename_vars -/

/-- The `'_old'` marker appended by `rename_vars`. -/
def oldSuffix : List Char := nm "_old"

/-- Z3 expression as `rename_vars` observes it: 256-bit constants,
free (uninterpreted-constant) variables identified by name, and
applications of an opaque binary operator. -/
inductive Expr where
  | bv (n : Nat)
  | evar (v : List Char)
  | app (op : String) (a b : Expr)
deriving DecidableEq

/-- Free-variable occurrences of an expression, left to right. -/
def exprVars : Expr → List (List Char)
  | Expr.bv _ => []
  | Expr.evar v => [v]
  | Expr.app _ a b => exprVars a ++ exprVars b

/-- First-occurrence deduplication, as `z3util.get_vars` performs it
(`seen` accumulates the names already emitted). -/
def dedupFirst (seen : List (List Char)) : List (List Char) → List (List Char)
  | [] => []
  | x :: xs => if x ∈ seen then dedupFirst seen xs else x :: dedupFirst (x :: seen) xs

/-- Embedding of `z3util.get_vars`: the free variables of an
expression, each listed once at its first occurrence. -/
def get_vars (e : Expr) : List (List Char) :=
  dedupFirst [] (exprVars e)

/-- Embedding of `z3.substitute e (a, b)` for the one form `rename_vars`
uses: replaces every occurrence of variable `a` by variable `b`. -/
def subst (e : Expr) (a b : List Char) : Expr :=
  match e with
  | Expr.bv n => Expr.bv n
  | Expr.evar v => if v = a then Expr.evar b else Expr.evar v
  | Expr.app op x y => Expr.app op (subst x a b) (subst y a b)

/-- Lookup in the `vars_mapping` side table (Z3 variables of one sort
are structurally determined by their name). -/
def lookupMap : List (List Char × List Char) → List Char → Option (List Char)
  | [], _ => none
  | (k, w) :: rest, v => if v = k then some w else lookupMap rest v

/-- Per-expression loop of `rename_vars`: processes the variable list
computed up front, substituting through the shared mapping when the
variable is already mapped, skipping storage variables whose slot is not
a key of the modified-storage map, and otherwise renaming with the
`'_old'` suffix (recording the rename in the mapping).  `none` models
the `IndexError` `get_storage_position` raises on a storage name
without `'-'`. -/
def renameExprLoop (gsKeys : List SlotId) :
    List (List Char) → Expr → List (List Char × List Char) →
    Option (Expr × List (List Char × List Char))
  | [], e, m => some (e, m)
  | v :: vs, e, m =>
    match lookupMap m v with
    | some w => renameExprLoop gsKeys vs (subst e v w) m
    | none =>
      if is_storage_var v then
        match get_storage_position v with
        | none => none
        | some pos =>
          if pos ∈ gsKeys then
            renameExprLoop gsKeys vs (subst e v (v ++ oldSuffix)) ((v, v ++ oldSuffix) :: m)
          else
            renameExprLoop gsKeys vs e m
      else
        renameExprLoop gsKeys vs (subst e v (v ++ oldSuffix)) ((v, v ++ oldSuffix) :: m)

/-- First loop of `rename_vars`: renames each path condition in order,
threading the shared mapping. -/
def renamePcsLoop (gsKeys : List SlotId) :
    List Expr → List (List Char × List Char) →
    Option (List Expr × List (List Char × List Char))
  | [], m => some ([], m)
  | e :: es, m =>
    match renameExprLoop gsKeys (get_vars e) e m with
    | none => none
    | some (e', m') =>
      match renamePcsLoop gsKeys es m' with
      | none => none
      | some (es', m'') => some (e' :: es', m'')

/-- Second loop of `rename_vars`: renames each modified-storage value in
order, keeping the storage address and threading the same mapping. -/
def renameGsLoop (gsKeys : List SlotId) :
    List (SlotId × Expr) → List (List Char × List Char) →
    Option (List (SlotId × Expr) × List (List Char × List Char))
  | [], m => some ([], m)
  | (addr, e) :: gs, m =>
    match renameExprLoop gsKeys (get_vars e) e m with
    | none => none
    | some (e', m') =>
      match renameGsLoop gsKeys gs m' with
      | none => none
      | some (gs', m'') => some ((addr, e') :: gs', m'')

/-- Embedding of `utils.rename_vars`: renames the path conditions and
then the modified-storage values, sharing one incrementally built
mapping; storage membership is always tested against the keys of the
original `global_states` dictionary. -/
def rename_vars (pcs : List Expr) (global_states : List (SlotId × Expr)) :
    Option (List Expr × List (SlotId × Expr)) :=
  let gsKeys := global_states.map Prod.fst
  match renamePcsLoop gsKeys pcs [] with
  | none => none
  | some (ret_pcs, m) =>
    match renameGsLoop gsKeys global_states m with
    | none => none
    | some (ret_gs, _) => some (ret_pcs, ret_gs)

/-- The renaming the specification describes, per variable: every
non-storage variable is renamed; a storage variable is renamed exactly
when its slot is a key of the modified-storage map. -/
def shouldRename (gsKeys : List SlotId) (v : List Char) : Bool :=
  if is_storage_var v then
    match get_storage_position v with
    | some pos => decide (pos ∈ gsKeys)
    | none => false
  else true

/-- Parallel renaming of the variables in `P` with the `'_old'`
suffix. -/
def renameOn (P : List (List Char)) : Expr → Expr
  | Expr.bv n => Expr.bv n
  | Expr.evar v => if v ∈ P then Expr.evar (v ++ oldSuffix) else Expr.evar v
  | Expr.app op a b => Expr.app op (renameOn P a) (renameOn P b)

/-- The claim's specification of `rename_vars` on one expression: every
variable satisfying `shouldRename` is replaced by its `'_old'` copy,
simultaneously. -/
def renameSpec (gsKeys : List SlotId) : Expr → Expr
  | Expr.bv n => Expr.bv n
  | Expr.evar v =>
    if shouldRename gsKeys v then Expr.evar (v ++ oldSuffix) else Expr.evar v
  | Expr.app op a b => Expr.app op (renameSpec gsKeys a) (renameSpec gsKeys b)

/-- All variable occurrences of a `rename_vars` input. -/
def allVars (pcs : List Expr) (gs : List (SlotId × Expr)) : List (List Char) :=
  (pcs.map exprVars).flatten ++ ((gs.map Prod.snd).map exprVars).flatten

/-- Invariant of the shared `vars_mapping`: it only records renames of
variables of the input, always to their `'_old'` copies, and only for
variables the specification renames. -/
def MapInv (A : List (List Char)) (gsKeys : List SlotId)
    (m : List (List Char × List Char)) : Prop :=
  ∀ v w, lookupMap m v = some w →
    v ∈ A ∧ w = v ++ oldSuffix ∧ shouldRename gsKeys v = true

lemma renameOn_nil (e : Expr) : renameOn [] e = e := by
  induction e with
  | bv n => rfl
  | evar v => simp [renameOn]
  | app op a b iha ihb => simp [renameOn, iha, ihb]

lemma renameOn_congr {P Q : List (List Char)} (h : ∀ u, u ∈ P ↔ u ∈ Q) (e : Expr) :
    renameOn P e = renameOn Q e := by
  induction e with
  | bv n => rfl
  | evar v =>
    by_cases hv : v ∈ P
    · simp [renameOn, hv, (h v).mp hv]
    · have hv' : v ∉ Q := fun hq => hv ((h v).mpr hq)
      simp [renameOn, hv, hv']
  | app op a b iha ihb => simp [renameOn, iha, ihb]

lemma subst_renameOn {P : List (List Char)} {v : List Char}
    (h : ∀ u ∈ P, ¬ u ++ oldSuffix = v) (e : Expr) :
    subst (renameOn P e) v (v ++ oldSuffix) = renameOn (v :: P) e := by
  induction e with
  | bv n => rfl
  | evar u =>
    by_cases hu : u ∈ P
    · have hne : ¬ u ++ oldSuffix = v := h u hu
      simp [renameOn, subst, hu, hne, List.mem_cons]
    · by_cases huv : u = v
      · subst huv
        simp [renameOn, subst, hu, List.mem_cons]
      · simp [renameOn, subst, hu, huv, List.mem_cons]
  | app op a b iha ihb => simp [renameOn, subst, iha, ihb]

lemma renameOn_filter (gsKeys : List SlotId) (vs : List (List Char)) (e : Expr)
    (h : ∀ u ∈ exprVars e, u ∈ vs) :
    renameOn (vs.filter (fun u => shouldRename gsKeys u)) e = renameSpec gsKeys e := by
  induction e with
  | bv n => rfl
  | evar v =>
    have hv : v ∈ vs := h v (by simp [exprVars])
    by_cases hs : shouldRename gsKeys v = true
    · have : v ∈ vs.filter (fun u => shouldRename gsKeys u) :=
        List.mem_filter.mpr ⟨hv, hs⟩
      simp [renameOn, renameSpec, this, hs]
    · have : v ∉ vs.filter (fun u => shouldRename gsKeys u) := by
        intro hmem
        exact hs (List.mem_filter.mp hmem).2
      simp [renameOn, renameSpec, this, hs]
  | app op a b iha ihb =>
    have ha : ∀ u ∈ exprVars a, u ∈ vs := fun u hu => h u (by simp [exprVars, hu])
    have hb : ∀ u ∈ exprVars b, u ∈ vs := fun u hu => h u (by simp [exprVars, hu])
    simp [renameOn, renameSpec, iha ha, ihb hb]

lemma mem_dedupFirst {x : List Char} :
    ∀ (l seen : List (List Char)), x ∈ dedupFirst seen l ↔ x ∈ l ∧ x ∉ seen := by
  intro l
  induction l with
  | nil => intro seen; simp [dedupFirst]
  | cons y ys ih =>
    intro seen
    by_cases hy : y ∈ seen
    · rw [dedupFirst, if_pos hy, ih]
      constructor
      · intro ⟨h1, h2⟩; exact ⟨List.mem_cons_of_mem y h1, h2⟩
      · intro ⟨h1, h2⟩
        rcases List.mem_cons.mp h1 with rfl | h1'
        · exact absurd hy h2
        · exact ⟨h1', h2⟩
    · rw [dedupFirst, if_neg hy]
      constructor
      · intro hmem
        rcases List.mem_cons.mp hmem with rfl | h1
        · exact ⟨List.mem_cons_self x ys, hy⟩
        · have := (ih (y :: seen)).mp h1
          refine ⟨List.mem_cons_of_mem y this.1, fun hs => this.2 (List.mem_cons_of_mem y hs)⟩
      · intro ⟨h1, h2⟩
        rcases List.mem_cons.mp h1 with rfl | h1'
        · exact List.mem_cons_self x _
        · by_cases hxy : x = y
          · subst hxy; exact List.mem_cons_self x _
          · exact List.mem_cons_of_mem y
              ((ih (y :: seen)).mpr ⟨h1', by simp [List.mem_cons, hxy, h2]⟩)

lemma renameExprLoop_spec (gsKeys : List SlotId) (A : List (List Char))
    (hFresh : ∀ v ∈ A, ∀ w ∈ A, ¬ w = v ++ oldSuffix)
    (hWf : ∀ v ∈ A, is_storage_var v = true → (get_storage_position v).isSome = true) :
    ∀ (vs P : List (List Char)) (m : List (List Char × List Char)) (e : Expr),
      (∀ u ∈ vs, u ∈ A) → (∀ u ∈ P, u ∈ A) → MapInv A gsKeys m →
      ∃ m', renameExprLoop gsKeys vs (renameOn P e) m =
              some (renameOn (P ++ vs.filter (fun u => shouldRename gsKeys u)) e, m') ∧
            MapInv A gsKeys m' := by
  intro vs
  induction vs with
  | nil =>
    intro P m e _ _ hm
    exact ⟨m, by simp [renameExprLoop], hm⟩
  | cons v vs ih =>
    intro P m e hvs hP hm
    have hvA : v ∈ A := hvs v (List.mem_cons_self v vs)
    have hvs' : ∀ u ∈ vs, u ∈ A := fun u hu => hvs u (List.mem_cons_of_mem v hu)
    have hsubstP : ∀ u ∈ P, ¬ u ++ oldSuffix = v := by
      intro u hu heq
      exact hFresh u (hP u hu) v hvA heq.symm
    have hP' : ∀ u ∈ v :: P, u ∈ A := by
      intro u hu
      rcases List.mem_cons.mp hu with rfl | hu'
      · exact hvA
      · exact hP u hu'
    cases hlook : lookupMap m v with
    | some w =>
      obtain ⟨_, hw, hsr⟩ := hm v w hlook
      subst hw
      obtain ⟨m', heq, hm'⟩ := ih (v :: P) m e hvs' hP' hm
      refine ⟨m', ?_, hm'⟩
      simp only [renameExprLoop, hlook]
      rw [subst_renameOn hsubstP e, heq]
      congr 2
      apply renameOn_congr
      intro u
      simp only [List.mem_append, List.mem_cons, List.filter_cons, hsr, if_true,
        List.mem_filter]
      constructor
      · rintro (h1 | h1) <;> tauto
      · rintro (h1 | h1) <;> tauto
    | none =>
      by_cases hstore : is_storage_var v = true
      · cases hpos : get_storage_position v with
        | none =>
          have := hWf v hvA hstore
          rw [hpos] at this
          simp at this
        | some pos =>
          by_cases hkey : pos ∈ gsKeys
          · have hsr : shouldRename gsKeys v = true := by
              simp [shouldRename, hstore, hpos, hkey]
            have hm0 : MapInv A gsKeys ((v, v ++ oldSuffix) :: m) := by
              intro x w hx
              by_cases hxv : x = v
              · subst hxv
                simp [lookupMap] at hx
                exact ⟨hvA, hx.symm, hsr⟩
              · rw [lookupMap, if_neg hxv] at hx
                exact hm x w hx
            obtain ⟨m', heq, hm'⟩ := ih (v :: P) ((v, v ++ oldSuffix) :: m) e hvs' hP' hm0
            refine ⟨m', ?_, hm'⟩
            simp only [renameExprLoop, hlook, hstore, hpos, if_pos hkey, if_true]
            rw [subst_renameOn hsubstP e, heq]
            congr 2
            apply renameOn_congr
            intro u
            simp only [List.mem_append, List.mem_cons, List.filter_cons, hsr, if_true,
              List.mem_filter]
            constructor
            · rintro (h1 | h1) <;> tauto
            · rintro (h1 | h1) <;> tauto
          · have hsr : shouldRename gsKeys v = false := by
              simp [shouldRename, hstore, hpos, hkey]
            obtain ⟨m', heq, hm'⟩ := ih P m e hvs' hP hm
            refine ⟨m', ?_, hm'⟩
            simp only [renameExprLoop, hlook, hstore, hpos, if_neg hkey, if_true]
            rw [heq]
            congr 3
            simp [List.filter_cons, hsr]
      · have hsr : shouldRename gsKeys v = true := by
          simp [shouldRename, hstore]
        have hm0 : MapInv A gsKeys ((v, v ++ oldSuffix) :: m) := by
          intro x w hx
          by_cases hxv : x = v
          · subst hxv
            simp [lookupMap] at hx
            exact ⟨hvA, hx.symm, hsr⟩
          · rw [lookupMap, if_neg hxv] at hx
            exact hm x w hx
        obtain ⟨m', heq, hm'⟩ := ih (v :: P) ((v, v ++ oldSuffix) :: m) e hvs' hP' hm0
        refine ⟨m', ?_, hm'⟩
        simp only [renameExprLoop, hlook]
        rw [if_neg (by simp [hstore])]
        rw [subst_renameOn hsubstP e, heq]
        congr 2
        apply renameOn_congr
        intro u
        simp only [List.mem_append, List.mem_cons, List.filter_cons, hsr, if_true,
          List.mem_filter]
        constructor
        · rintro (h1 | h1) <;> tauto
        · rintro (h1 | h1) <;> tauto

lemma renameOne_spec (gsKeys : List SlotId) (A : List (List Char))
    (hFresh : ∀ v ∈ A, ∀ w ∈ A, ¬ w = v ++ oldSuffix)
    (hWf : ∀ v ∈ A, is_storage_var v = true → (get_storage_position v).isSome = true)
    (e : Expr) (m : List (List Char × List Char))
    (he : ∀ u ∈ exprVars e, u ∈ A) (hm : MapInv A gsKeys m) :
    ∃ m', renameExprLoop gsKeys (get_vars e) e m = some (renameSpec gsKeys e, m') ∧
      MapInv A gsKeys m' := by
  have hvs : ∀ u ∈ get_vars e, u ∈ A := by
    intro u hu
    exact he u ((mem_dedupFirst (exprVars e) []).mp hu).1
  obtain ⟨m', heq, hm'⟩ :=
    renameExprLoop_spec gsKeys A hFresh hWf (get_vars e) [] m e hvs (by simp) hm
  rw [renameOn_nil] at heq
  rw [List.nil_append] at heq
  rw [renameOn_filter gsKeys (get_vars e) e
    (fun u hu => (mem_dedupFirst (exprVars e) []).mpr ⟨hu, by simp⟩)] at heq
  exact ⟨m', heq, hm'⟩

lemma renamePcsLoop_spec (gsKeys : List SlotId) (A : List (List Char))
    (hFresh : ∀ v ∈ A, ∀ w ∈ A, ¬ w = v ++ oldSuffix)
    (hWf : ∀ v ∈ A, is_storage_var v = true → (get_storage_position v).isSome = true) :
    ∀ (pcs : List Expr) (m : List (List Char × List Char)),
      (∀ e ∈ pcs, ∀ u ∈ exprVars e, u ∈ A) → MapInv A gsKeys m →
      ∃ m', renamePcsLoop gsKeys pcs m = some (pcs.map (renameSpec gsKeys), m') ∧
        MapInv A gsKeys m' := by
  intro pcs
  induction pcs with
  | nil => intro m _ hm; exact ⟨m, rfl, hm⟩
  | cons e es ih =>
    intro m hpcs hm
    obtain ⟨m', heq, hm'⟩ := renameOne_spec gsKeys A hFresh hWf e m
      (hpcs e (List.mem_cons_self e es)) hm
    obtain ⟨m'', heq2, hm''⟩ := ih m' (fun e' he' => hpcs e' (List.mem_cons_of_mem e he')) hm'
    exact ⟨m'', by simp [renamePcsLoop, heq, heq2], hm''⟩

lemma renameGsLoop_spec (gsKeys : List SlotId) (A : List (List Char))
    (hFresh : ∀ v ∈ A, ∀ w ∈ A, ¬ w = v ++ oldSuffix)
    (hWf : ∀ v ∈ A, is_storage_var v = true → (get_storage_position v).isSome = true) :
    ∀ (gsl : List (SlotId × Expr)) (m : List (List Char × List Char)),
      (∀ kv ∈ gsl, ∀ u ∈ exprVars kv.2, u ∈ A) → MapInv A gsKeys m →
      ∃ m', renameGsLoop gsKeys gsl m =
          some (gsl.map (fun kv => (kv.1, renameSpec gsKeys kv.2)), m') ∧
        MapInv A gsKeys m' := by
  intro gsl
  induction gsl with
  | nil => intro m _ hm; exact ⟨m, rfl, hm⟩
  | cons kv gsl ih =>
    intro m hgs hm
    obtain ⟨addr, e⟩ := kv
    obtain ⟨m', heq, hm'⟩ := renameOne_spec gsKeys A hFresh hWf e m
      (hgs (addr, e) (List.mem_cons_self _ gsl)) hm
    obtain ⟨m'', heq2, hm''⟩ := ih m' (fun kv' hkv' => hgs kv' (List.mem_cons_of_mem _ hkv')) hm'
    exact ⟨m'', by simp [renameGsLoop, heq, heq2], hm''⟩

/- ### Concrete example data used by the claim theorems -/

/-- Base contract of the C3 example: `A.sol:Base` declaring `owner`. -/
def baseNode : ContractNode := ⟨1, [1], some [⟨"VariableDeclaration", "owner"⟩]⟩

/-- Derived contract of the C3 example: `A.sol:Child` deriving `Base`
(linearization most-derived first) and declaring `balance`. -/
def childNode : ContractNode := ⟨2, [2, 1], some [⟨"VariableDeclaration", "balance"⟩]⟩

/-- Contract registry of the C3 example. -/
def exIndex : ContractsIndex :=
  ⟨[(1, baseNode), (2, childNode)],
   [("A.sol:Base", baseNode), ("A.sol:Child", childNode)]⟩

/-- Callee expression of the C6 counterexample: its static type names
the contract `Bar`, which no known qualified name provides. -/
def calleeChild : RNode := RNode.mk none (some (nm "contract Bar")) "" RForest.nil

/-- A `delegatecall` member-access site whose callee has type
`contract Bar`. -/
def calleeNode : RNode :=
  RNode.mk (some "delegatecall") none "callsrc" (RForest.cons calleeChild RForest.nil)

/-- Callee expression of the C6 example whose type names the contract
`Foo`, provided (ambiguously) by two qualified names. -/
def calleeChildFoo : RNode := RNode.mk none (some (nm "contract Foo")) "" RForest.nil

/-- A `call` member-access site whose callee has type `contract Foo`. -/
def calleeNodeFoo : RNode :=
  RNode.mk (some "call") none "src1" (RForest.cons calleeChildFoo RForest.nil)

/-- Path conditions of the C1 example: a non-storage symbol `x`, the
storage symbol of slot 3 and the storage symbol of slot 7. -/
def pcsEx : List Expr :=
  [Expr.app "bvand"
    (Expr.app "bvlt" (Expr.evar (nm "x")) (Expr.evar (nm "Ia_store-3-0")))
    (Expr.evar (nm "Ia_store-7-0"))]

/-- Modified storage of the C1 example: slot 3 only, its value
mentioning `x` again (so the rename map built on the path conditions is
reused here). -/
def gsEx : List (SlotId × Expr) := [(SlotId.num 3, Expr.evar (nm "x"))]

/- ### Claim theorems -/

/-- C2: `to_signed (to_unsigned x) = x` on the signed 256-bit range,
`to_unsigned (to_signed y) = y` on the unsigned 256-bit range,
`to_signed` subtracts `2^256` from every value at least `2^255`, and
`to_unsigned` adds `2^256` to every negative value (both functions are
total by construction). -/
theorem to_signed_to_unsigned_roundtrip :
    (∀ x : Int, -(2 ^ 255) ≤ x → x ≤ 2 ^ 255 - 1 → to_signed (to_unsigned x) = x) ∧
    (∀ y : Int, 0 ≤ y → y ≤ 2 ^ 256 - 1 → to_unsigned (to_signed y) = y) ∧
    (∀ v : Int, 2 ^ 255 ≤ v → to_signed v = v - 2 ^ 256) ∧
    (∀ n : Int, n < 0 → to_unsigned n = n + 2 ^ 256) := by
  have hpow : (2 : Int) ^ 256 = 2 * 2 ^ 255 := by ring
  have hpos : (0 : Int) < 2 ^ 255 := by positivity
  have h255 : (256 - 1 : Nat) = 255 := by norm_num
  refine ⟨?_, ?_, ?_, ?_⟩
  · intro x h1 h2
    simp only [to_unsigned, to_signed, h255]
    split_ifs <;> omega
  · intro y h1 h2
    simp only [to_unsigned, to_signed, h255]
    split_ifs <;> omega
  · intro v h1
    simp only [to_signed, h255]
    split_ifs <;> omega
  · intro n h1
    simp only [to_unsigned]
    rw [if_pos h1]

/-- C2 witness: the round trip evaluated at the concrete value `-5`. -/
theorem to_signed_to_unsigned_roundtrip_witness :
    to_signed (to_unsigned (-5)) = -5 :=
  to_signed_to_unsigned_roundtrip.1 (-5) (by norm_num) (by norm_num)

/-- C10: `is_storage_var` accepts every name with the `Ia_store` marker
as a proper prefix or the bare marker itself; `get_storage_position`
reaches its out-of-range-indexing error branch (`none`) on every name
without `'-'` — in particular on `"Ia_store"`, which `is_storage_var`
accepts — and on every name with `'-'` it returns the token between the
first and second `'-'`, parsed as an integer when it is a decimal
numeral and kept as the raw token otherwise. -/
theorem storage_classification_no_slot :
    (∀ t : List Char, is_storage_var (nm "Ia_store" ++ t) = true) ∧
    is_storage_var (nm "Ia_store") = true ∧
    get_storage_position (nm "Ia_store") = none ∧
    (∀ v : List Char, '-' ∉ v → get_storage_position v = none) ∧
    (∀ pre mid rest : List Char, '-' ∉ pre → '-' ∉ mid →
      (rest = [] ∨ ∃ r : List Char, rest = '-' :: r) →
      get_storage_position (pre ++ '-' :: (mid ++ rest)) =
        some (if mid ≠ [] ∧ mid.all Char.isDigit then SlotId.num (decimalValue mid)
          else SlotId.sym mid)) := by
  refine ⟨?_, by decide, by decide, ?_, ?_⟩
  · intro t
    exact isPrefixOf_append_self (nm "Ia_store") t
  · intro v hv
    simp [get_storage_position, splitOnChar_of_not_mem '-' v hv]
  · intro pre mid rest hpre hmid hrest
    have hsplit : ∃ t : List (List Char),
        splitOnChar '-' (pre ++ '-' :: (mid ++ rest)) = pre :: mid :: t := by
      rw [splitOnChar_append '-' pre (mid ++ rest) hpre]
      rcases hrest with rfl | ⟨r, rfl⟩
      · rw [List.append_nil, splitOnChar_of_not_mem '-' mid hmid]
        exact ⟨[], rfl⟩
      · rw [splitOnChar_append '-' mid r hmid]
        exact ⟨splitOnChar '-' r, rfl⟩
    obtain ⟨t, ht⟩ := hsplit
    simp only [get_storage_position, ht, List.get?_cons_succ, List.get?_cons_zero]
    split_ifs <;> rfl

/-- C10 witness: the slot of the well-formed storage name
`Ia_store-3` (written as the marker, a dash and the numeral token)
evaluates to the numeric slot 3. -/
theorem storage_classification_no_slot_witness :
    get_storage_position (nm "Ia_store" ++ '-' :: (nm "3" ++ [])) = some (SlotId.num 3) :=
  (storage_classification_no_slot.2.2.2.2 (nm "Ia_store") (nm "3") []
    (by decide) (by decide) (Or.inl rfl)).trans (by decide)

/-- C9: `check_sat` with its default arguments returns a `sat` or
`unsat` check outcome unchanged without touching the solver; on an
`unknown` outcome it never returns a result: it pops the solver stack
and propagates an error carrying the solver's stated reason. -/
theorem check_sat_behavior (s : Solver) :
    (s.check_result = CheckResult.sat →
      check_sat_default s = (Except.ok CheckResult.sat, s)) ∧
    (s.check_result = CheckResult.unsat →
      check_sat_default s = (Except.ok CheckResult.unsat, s)) ∧
    (s.check_result = CheckResult.unknown →
      (∀ (r : CheckResult) (st : Solver), check_sat_default s ≠ (Except.ok r, st)) ∧
      check_sat_default s = (Except.error s.reason_unknown, solver_pop s)) := by
  refine ⟨?_, ?_, ?_⟩ <;> intro h <;> simp [check_sat_default, check_sat, h]

/-- C9 witness: a solver whose check comes back unknown with reason
"timeout". -/
theorem check_sat_behavior_witness :
    check_sat_default ⟨CheckResult.unknown, "timeout", 2⟩ =
      (Except.error "timeout", solver_pop ⟨CheckResult.unknown, "timeout", 2⟩) :=
  ((check_sat_behavior ⟨CheckResult.unknown, "timeout", 2⟩).2.2 rfl).2

/-- C7 counterexample: on a parameter list whose array parameter has
declared length 0 the assigned slots are `[0, 0]`, so the slot indices
are not strictly increasing as the claim asserts for any parameter
list. -/
theorem assign_positions_claim_counterexample :
    ((assign_positions [⟨"a", "ArrayTypeName", some 0⟩,
        ⟨"b", "ElementaryTypeName", none⟩]).map Prod.snd = [0, 0]) ∧
    ¬ List.Chain' (· < ·) ((assign_positions [⟨"a", "ArrayTypeName", some 0⟩,
        ⟨"b", "ElementaryTypeName", none⟩]).map Prod.snd) := by
  constructor
  · rfl
  · intro h
    rw [show (assign_positions [⟨"a", "ArrayTypeName", some 0⟩,
        ⟨"b", "ElementaryTypeName", none⟩]).map Prod.snd = [0, 0] from rfl] at h
    simp [List.chain'_cons] at h

/-- C7 (amended): the slot assignment keeps the parameters in
declaration order, assigns slot indices equal to the sum of the slot
sizes of all preceding parameters (slot 0 to the first parameter,
advancing by 1 after a scalar parameter and by the declared array
length after an array parameter), and the indices are strictly
increasing provided every parameter's slot size is at least 1 — scalar
parameters always are, array parameters are whenever their declared
length is at least 1. -/
theorem assign_positions_amended (ps : List Param)
    (h : ∀ p ∈ ps, 1 ≤ paramSlotSize p) :
    (assign_positions ps).map Prod.fst = ps ∧
    (∀ k : Nat, k < ps.length →
      ((assign_positions ps).map Prod.snd).getD k 0 = ((ps.take k).map paramSlotSize).sum) ∧
    (ps ≠ [] → ((assign_positions ps).map Prod.snd).getD 0 0 = 0) ∧
    List.Chain' (· < ·) ((assign_positions ps).map Prod.snd) := by
  refine ⟨assign_positions_go_map_fst 0 ps, ?_, ?_, assign_positions_go_chain ps h 0⟩
  · intro k hk
    have := assign_positions_go_getD ps 0 k hk
    simpa [assign_positions] using this
  · intro hne
    have hlen : 0 < ps.length := List.length_pos.mpr hne
    have := assign_positions_go_getD ps 0 0 hlen
    simpa [assign_positions] using this

/-- C7 witness: a declared-length-2 array followed by a scalar gets the
strictly increasing slots 0 and 2. -/
theorem assign_positions_amended_witness :
    List.Chain' (· < ·) ((assign_positions [⟨"a", "ArrayTypeName", some 2⟩,
      ⟨"b", "ElementaryTypeName", none⟩]).map Prod.snd) :=
  (assign_positions_amended [⟨"a", "ArrayTypeName", some 2⟩,
    ⟨"b", "ElementaryTypeName", none⟩] (by decide)).2.2.2

/-- C3: for every known qualified contract name whose linearized base
list resolves, `extract_state_definitions` returns the concatenation,
over the linearized base-contract list reversed to base-first order, of
each contract's direct "VariableDeclaration" children, preserving each
contract's internal declaration order. -/
theorem extract_state_definitions_base_first (contracts : ContractsIndex)
    (c_name : String) (node : ContractNode) (bases : List ContractNode)
    (hn : dictGet contracts.contractsByName c_name = some node)
    (hb : get_linearized_base_contracts contracts.contractsById node.id = some bases) :
    extract_state_definitions contracts c_name =
      some ((bases.reverse.map (fun c =>
        (c.children.getD []).filter (fun item => item.name == "VariableDeclaration"))).flatten) := by
  simp only [extract_state_definitions, hn, hb]
  rw [foldl_collectVarDecls]
  simp

/-- C3 witness: on the example registry,
`stateVariables("A.sol:Child")` lists `owner` then `balance`. -/
theorem extract_state_definitions_base_first_witness :
    extract_state_definitions exIndex "A.sol:Child" =
      some [⟨"VariableDeclaration", "owner"⟩, ⟨"VariableDeclaration", "balance"⟩] :=
  (extract_state_definitions_base_first exIndex "A.sol:Child" childNode
    [childNode, baseNode] (by decide) (by decide)).trans (by decide)

/-- C4 counterexample: on a contract whose assembly has no nested
auxiliary data segment at all, `_get_positions` still emits a trailing
sentinel entry (the loop appends it before discovering there is nothing
to descend into), so the stream is not the claimed
code-plus-nested-segments stream and contains a sentinel that does not
precede any nested code segment. -/
theorem get_positions_claim_counterexample :
    get_positions (AsmSeg.leaf (some [7])) = some [some 7, none] ∧
    claimStream (AsmSeg.leaf (some [7])) = [some 7] ∧
    get_positions (AsmSeg.leaf (some [7])) ≠
      some (claimStream (AsmSeg.leaf (some [7]))) := by
  refine ⟨rfl, rfl, ?_⟩
  intro h
  simp [get_positions, get_positions_loop, claimStream, nestedCodes, AsmSeg.code] at h

/-- C4 (amended): for every contract whose assembly carries a code
segment, the flattened stream is the contract's own code followed, for
each successively nested code-bearing auxiliary segment, by exactly one
sentinel gap entry and that segment's code — plus one final trailing
sentinel appended by the last loop iteration before it finds no further
nested segment; hence the length exceeds the flattened
code+nested-segment stream by exactly one. -/
theorem get_positions_amended (asm : AsmSeg) (code : List Nat)
    (h : asm.code = some code) :
    get_positions asm = some (claimStream asm ++ [none]) ∧
    (get_positions asm).map List.length =
      some ((claimStream asm).length + 1) := by
  have hmain : get_positions asm = some (claimStream asm ++ [none]) := by
    simp only [get_positions, h]
    rw [get_positions_loop_eq]
    simp [claimStream, h, List.append_assoc]
  refine ⟨hmain, ?_⟩
  rw [hmain]
  simp

/-- C4 witness: a contract with one nested code-bearing segment; the
sentinel separates the two code segments and one trailing sentinel
closes the stream. -/
theorem get_positions_amended_witness :
    get_positions (AsmSeg.node (some [1, 2]) (AsmSeg.leaf (some [3]))) =
      some (claimStream (AsmSeg.node (some [1, 2]) (AsmSeg.leaf (some [3]))) ++ [none]) :=
  (get_positions_amended (AsmSeg.node (some [1, 2]) (AsmSeg.leaf (some [3]))) [1, 2] rfl).1

/-- C8: on every sorted table `_find_lower_bound` returns `-1` exactly
when every entry exceeds the offset, and otherwise the index of the
greatest entry `≤` the offset (every later entry is strictly greater);
and every line-break table loaded from a source text is sorted with all
entries below the text length, so an in-text offset is at least the
preceding break and strictly below the next break or the file
length. -/
theorem find_lower_bound_floor_consistent (a : List Nat)
    (hs : List.Pairwise (· < ·) a) (o : Nat) :
    ((find_lower_bound o a = -1 ∧ ∀ b ∈ a, o < b) ∨
      (∃ k : Nat, find_lower_bound o a = (k : Int) ∧ k < a.length ∧
        a.getD k 0 ≤ o ∧ ∀ i : Nat, k < i → i < a.length → o < a.getD i 0)) ∧
    (∀ cs : List Char, List.Pairwise (· < ·) (load_line_break_positions cs) ∧
      ∀ b ∈ load_line_break_positions cs, b < cs.length) := by
  constructor
  · have hle : List.Pairwise (· ≤ ·) a := hs.imp (fun h => le_of_lt h)
    have hspec := find_lower_bound_go_spec o a hle a.length a.length 0 (le_refl _)
      (by omega) (by intro i hi; omega) (by intro i h1 h2; omega)
    set r := find_lower_bound_go o a a.length 0 a.length with hr
    rcases Nat.eq_zero_or_pos r with hr0 | hrpos
    · left
      constructor
      · simp [find_lower_bound, ← hr, hr0]
      · intro b hb
        obtain ⟨i, hi, hbe⟩ := List.mem_iff_getElem.mp hb
        have := hspec.2.2.2 i (by omega) hi
        rw [List.getD_eq_getElem a 0 hi] at this
        omega
    · right
      refine ⟨r - 1, ?_, ?_, ?_, ?_⟩
      · show (r : Int) - 1 = ((r - 1 : Nat) : Int)
        omega
      · have := hspec.2.1
        omega
      · exact hspec.2.2.1 (r - 1) (by omega)
      · intro i h1 h2
        exact hspec.2.2.2 i (by omega) h2
  · intro cs
    exact ⟨load_line_break_positions_sorted cs,
      fun b hb => load_line_break_positions_lt_length hb⟩

/-- C8 witness: the floor-consistency statement instantiated at the
concrete sorted table `[2, 5]` and offset 3 (where the search returns
index 0). -/
theorem find_lower_bound_floor_consistent_witness :
    ((find_lower_bound 3 [2, 5] = -1 ∧ ∀ b ∈ [2, 5], 3 < b) ∨
      (∃ k : Nat, find_lower_bound 3 [2, 5] = (k : Int) ∧ k < [2, 5].length ∧
        [2, 5].getD k 0 ≤ 3 ∧ ∀ i : Nat, k < i → i < [2, 5].length → 3 < [2, 5].getD i 0)) ∧
    (∀ cs : List Char, List.Pairwise (· < ·) (load_line_break_positions cs) ∧
      ∀ b ∈ load_line_break_positions cs, b < cs.length) :=
  find_lower_bound_floor_consistent [2, 5] (by decide) 3

/-- C5 counterexample: in the two-line source `"ab\ncd"` the offset 0
lies on the first line, yet `_convert_from_char_pos` reports line 0 —
a 0-based line number, below the minimum value 1 of the claimed 1-based
numbering. -/
theorem convert_from_char_pos_claim_counterexample :
    convert_from_char_pos ⟨nm "ab\ncd"⟩ 0 = some (0, 0) ∧ (0 : Int) < 1 := by
  refine ⟨?_, by norm_num⟩
  rfl

/-- C5 (amended): offsets outside `[0, length)` yield no location; for
an in-range offset the function returns `some (l, c)` where `l` is the
floor index of the line-break table plus one — i.e. the 0-based line
number, 0 on the first line — and `c` is the offset minus the line
start, which is a 0-based column for every offset that does not itself
hold a line break (and `-1` on a line break). -/
theorem convert_from_char_pos_amended (src : Source) (pos : Int) :
    ((pos < 0 ∨ (src.content.length : Int) ≤ pos) →
      convert_from_char_pos src pos = none) ∧
    (0 ≤ pos → pos < (src.content.length : Int) →
      ∃ l c : Int, convert_from_char_pos src pos = some (l, c) ∧
        0 ≤ l ∧ l ≤ ((line_break_positions src).length : Int) ∧
        (l = 0 → (∀ b ∈ line_break_positions src, pos < (b : Int)) ∧ c = pos) ∧
        (0 < l → ∃ k : Nat, (k : Int) = l - 1 ∧ k < (line_break_positions src).length ∧
          (((line_break_positions src).getD k 0 : Nat) : Int) ≤ pos ∧
          (∀ i : Nat, k < i → i < (line_break_positions src).length →
            pos < (((line_break_positions src).getD i 0 : Nat) : Int)) ∧
          c = pos - ((((line_break_positions src).getD k 0 : Nat) : Int) + 1)) ∧
        (src.content.getD pos.toNat ' ' ≠ '\n' → 0 ≤ c)) := by
  constructor
  · intro h
    simp [convert_from_char_pos, h]
  · intro h0 hlen
    have hni : ¬ (pos < 0 ∨ (src.content.length : Int) ≤ pos) := by
      push_neg
      exact ⟨h0, hlen⟩
    set breaks := line_break_positions src with hbreaks
    have hsorted : List.Pairwise (· ≤ ·) breaks :=
      (load_line_break_positions_sorted src.content).imp (fun h => le_of_lt h)
    have hspec := find_lower_bound_go_spec pos.toNat breaks hsorted
      breaks.length breaks.length 0 (le_refl _) (by omega)
      (by intro i hi; omega) (by intro i h1 h2; omega)
    set r := find_lower_bound_go pos.toNat breaks breaks.length 0 breaks.length with hrdef
    have hfl : find_lower_bound pos.toNat breaks = (r : Int) - 1 := rfl
    have hconv : convert_from_char_pos src pos =
        some ((r : Int) - 1 + 1,
          pos - (if (r : Int) - 1 < 0 then 0
            else ((breaks.getD ((r : Int) - 1).toNat 0 : Nat) : Int) + 1)) := by
      simp only [convert_from_char_pos, if_neg hni, ← hbreaks, hfl]
    rcases Nat.eq_zero_or_pos r with hr0 | hrpos
    · have hif : ((r : Int) - 1 < 0) := by omega
      rw [hconv, if_pos hif]
      refine ⟨(r : Int) - 1 + 1, pos - 0, rfl, by omega, by omega, ?_, ?_, ?_⟩
      · intro _
        refine ⟨?_, by omega⟩
        intro b hb
        obtain ⟨i, hi, hbe⟩ := List.mem_iff_getElem.mp hb
        have := hspec.2.2.2 i (by omega) hi
        rw [List.getD_eq_getElem breaks 0 hi] at this
        omega
      · intro hcon
        exfalso
        omega
      · intro _
        omega
    · have hif : ¬ ((r : Int) - 1 < 0) := by omega
      have htn : ((r : Int) - 1).toNat = r - 1 := by omega
      rw [hconv, if_neg hif, htn]
      have hk1 : r - 1 < breaks.length := by
        have := hspec.2.1
        omega
      have hkle : breaks.getD (r - 1) 0 ≤ pos.toNat := hspec.2.2.1 (r - 1) (by omega)
      refine ⟨(r : Int) - 1 + 1, pos - (((breaks.getD (r - 1) 0 : Nat) : Int) + 1),
        rfl, by omega, ?_, ?_, ?_, ?_⟩
      · have := hspec.2.1
        omega
      · intro hcon
        exfalso
        omega
      · intro _
        refine ⟨r - 1, by omega, hk1, by omega, ?_, rfl⟩
        intro i h1 h2
        have := hspec.2.2.2 i (by omega) h2
        omega
      · intro hch
        have hne : breaks.getD (r - 1) 0 ≠ pos.toNat := by
          intro heq
          apply hch
          have hmem : breaks.getD (r - 1) 0 ∈ breaks := by
            rw [List.getD_eq_getElem breaks 0 hk1]
            exact List.getElem_mem hk1
          have := (mem_load_line_break_positions).mp (hbreaks ▸ hmem)
          rw [heq] at this
          exact this.2
        omega

/-- C5 witness: the in-range characterization instantiated in the
two-line source `"ab\ncd"` at offset 3 (the character `c` on the second
line). -/
theorem convert_from_char_pos_amended_witness :
    ∃ l c : Int, convert_from_char_pos ⟨nm "ab\ncd"⟩ 3 = some (l, c) ∧
      0 ≤ l ∧ l ≤ ((line_break_positions ⟨nm "ab\ncd"⟩).length : Int) ∧
      (l = 0 → (∀ b ∈ line_break_positions ⟨nm "ab\ncd"⟩, (3 : Int) < (b : Int)) ∧ c = 3) ∧
      (0 < l → ∃ k : Nat, (k : Int) = l - 1 ∧
        k < (line_break_positions ⟨nm "ab\ncd"⟩).length ∧
        (((line_break_positions ⟨nm "ab\ncd"⟩).getD k 0 : Nat) : Int) ≤ 3 ∧
        (∀ i : Nat, k < i → i < (line_break_positions ⟨nm "ab\ncd"⟩).length →
          (3 : Int) < (((line_break_positions ⟨nm "ab\ncd"⟩).getD i 0 : Nat) : Int)) ∧
        c = 3 - ((((line_break_positions ⟨nm "ab\ncd"⟩).getD k 0 : Nat) : Int) + 1)) ∧
      ((nm "ab\ncd").getD (3 : Int).toNat ' ' ≠ '\n' → 0 ≤ c) :=
  (convert_from_char_pos_amended ⟨nm "ab\ncd"⟩ 3).2 (by norm_num) (by decide)

/-- C6 counterexample: a `delegatecall` site whose callee type names
the unknown contract `Bar` makes `get_callee_src_pairs` emit the pair
`("", "callsrc")`: the empty placeholder string — not an `Unresolved`
variant — which is not among the known qualified names. -/
theorem find_contract_path_claim_counterexample :
    get_callee_src_pairs [nm "A.sol:Foo"] calleeNode = some [([], "callsrc")] ∧
    ([] : List Char) ∉ [nm "A.sol:Foo"] := by
  decide

/-- C6 (amended): `_find_contract_path` resolves by name-only lookup,
returning the first qualified name whose last `':'`-segment equals the
contract name (first match wins when ambiguous), and returns the empty
string — not an `Unresolved` variant — when no qualified name matches;
`get_callee_src_pairs` stores that result in the emitted pair, as the
concrete ambiguous example shows. -/
theorem find_contract_path_amended :
    (∀ (paths : List (List Char)) (c : List Char),
      (∀ p ∈ paths, (splitOnChar ':' p).getLastD [] ≠ c) →
      find_contract_path paths c = []) ∧
    (∀ (paths : List (List Char)) (c : List Char) (k : Nat),
      k < paths.length →
      (splitOnChar ':' (paths.getD k [])).getLastD [] = c →
      (∀ j : Nat, j < k → (splitOnChar ':' (paths.getD j [])).getLastD [] ≠ c) →
      find_contract_path paths c = paths.getD k []) ∧
    get_callee_src_pairs [nm "A.sol:Foo", nm "B.sol:Foo"] calleeNodeFoo =
      some [(nm "A.sol:Foo", "src1")] := by
  refine ⟨?_, ?_, by decide⟩
  · intro paths c
    induction paths with
    | nil => intro _; rfl
    | cons p rest ih =>
      intro h
      simp only [find_contract_path]
      rw [if_neg (h p (List.mem_cons_self p rest))]
      exact ih (fun q hq => h q (List.mem_cons_of_mem p hq))
  · intro paths c
    induction paths with
    | nil =>
      intro k hk
      simp at hk
    | cons p rest ih =>
      intro k hk hmatch hfirst
      cases k with
      | zero =>
        simp only [List.getD_cons_zero] at hmatch
        simp only [find_contract_path, List.getD_cons_zero]
        rw [if_pos hmatch]
      | succ k =>
        have h0 : (splitOnChar ':' p).getLastD [] ≠ c := by
          have := hfirst 0 (Nat.succ_pos k)
          simpa using this
        simp only [find_contract_path, List.getD_cons_succ]
        rw [if_neg h0]
        refine ih k (by simpa using hk) (by simpa using hmatch) ?_
        intro j hj
        have := hfirst (j + 1) (by omega)
        simpa using this

/-- C6 witness: with two qualified names both ending in `Foo`, the
lookup returns the first match. -/
theorem find_contract_path_amended_witness :
    find_contract_path [nm "A.sol:Bar", nm "A.sol:Foo", nm "B.sol:Foo"] (nm "Foo") =
      [nm "A.sol:Bar", nm "A.sol:Foo", nm "B.sol:Foo"].getD 1 [] := by
  apply find_contract_path_amended.2.1 [nm "A.sol:Bar", nm "A.sol:Foo", nm "B.sol:Foo"]
    (nm "Foo") 1 (by decide) (by decide)
  intro j hj
  have hj0 : j = 0 := by omega
  subst hj0
  decide

/-- C1 counterexample: when the path condition mentions both `x` and a
variable already named `x_old`, processing `x` first merges its
occurrences into `x_old`, and the later rename of the original `x_old`
captures them: the occurrence of `x` ends up as `x_old_old`, not as the
fresh `x_old` copy prescribed by the claim's parallel renaming. -/
theorem rename_vars_claim_counterexample :
    rename_vars [Expr.app "bvadd" (Expr.evar (nm "x")) (Expr.evar (nm "x_old"))] [] =
      some ([Expr.app "bvadd" (Expr.evar (nm "x_old_old")) (Expr.evar (nm "x_old_old"))],
        []) ∧
    ¬ rename_vars [Expr.app "bvadd" (Expr.evar (nm "x")) (Expr.evar (nm "x_old"))] [] =
      some ([Expr.app "bvadd" (Expr.evar (nm "x")) (Expr.evar (nm "x_old"))].map
        (renameSpec []), []) := by
  decide

/-- C1 (amended): provided no variable occurring in the path conditions
or the modified-storage values has another occurring variable's name
with the `'_old'` marker appended, and every occurring storage variable
carries a parsable slot, `rename_vars` equals the claimed parallel
renaming: every non-storage variable and every storage variable whose
slot is a key of the modified-storage map is replaced by its `'_old'`
copy, every storage variable with an absent slot is left unrenamed, and
one shared mapping makes the first rename of a variable determine every
later occurrence, in the path conditions and in the storage map
alike. -/
theorem rename_vars_amended (pcs : List Expr) (gs : List (SlotId × Expr))
    (hFresh : ∀ v ∈ allVars pcs gs, ∀ w ∈ allVars pcs gs, ¬ w = v ++ oldSuffix)
    (hWf : ∀ v ∈ allVars pcs gs, is_storage_var v = true →
      (get_storage_position v).isSome = true) :
    rename_vars pcs gs =
      some (pcs.map (renameSpec (gs.map Prod.fst)),
        gs.map (fun kv => (kv.1, renameSpec (gs.map Prod.fst) kv.2))) := by
  have hpcsA : ∀ e ∈ pcs, ∀ u ∈ exprVars e, u ∈ allVars pcs gs := by
    intro e he u hu
    apply List.mem_append_left
    exact List.mem_flatten.mpr ⟨exprVars e, List.mem_map_of_mem exprVars he, hu⟩
  have hgsA : ∀ kv ∈ gs, ∀ u ∈ exprVars kv.2, u ∈ allVars pcs gs := by
    intro kv hkv u hu
    apply List.mem_append_right
    exact List.mem_flatten.mpr ⟨exprVars kv.2,
      List.mem_map_of_mem exprVars (List.mem_map_of_mem Prod.snd hkv), hu⟩
  have hm0 : MapInv (allVars pcs gs) (gs.map Prod.fst) [] := by
    intro v w h
    simp [lookupMap] at h
  obtain ⟨m', h1, hm'⟩ := renamePcsLoop_spec (gs.map Prod.fst) (allVars pcs gs)
    hFresh hWf pcs [] hpcsA hm0
  obtain ⟨m'', h2, _⟩ := renameGsLoop_spec (gs.map Prod.fst) (allVars pcs gs)
    hFresh hWf gs m' hgsA hm'
  simp [rename_vars, h1, h2]

/-- C1 witness: on the claim's own example — modified storage `{3}`, a
path condition mentioning `x`, the slot-3 storage symbol and the slot-7
storage symbol — `x` and the slot-3 symbol get their `'_old'` copies
(with the rename of `x` shared into the storage value) while the slot-7
symbol is left unchanged. -/
theorem rename_vars_amended_witness :
    rename_vars pcsEx gsEx =
      some ([Expr.app "bvand"
        (Expr.app "bvlt" (Expr.evar (nm "x_old")) (Expr.evar (nm "Ia_store-3-0_old")))
        (Expr.evar (nm "Ia_store-7-0"))],
        [(SlotId.num 3, Expr.evar (nm "x_old"))]) :=
  (rename_vars_amended pcsEx gsEx (by decide) (by decide)).trans (by decide)
